import Mathlib

/-!
# Verification of the event-log / crash-dump collection pipeline

This file gives a shallow embedding of the collection pipeline implemented in
`eventlog_collector_gui.py` and proves the specification claims about it.

The program's worker (`_collect_worker`) validates the user input, exports each
requested event log by invoking the external `wevtutil` tool, optionally copies
`*.dmp` files from a crash-dump directory, and optionally bundles the output
directory into a ZIP archive.  All interaction with the outside world
(process invocation, the shared abort flag, directory listings, copy and
archive success) is modelled by an environment of oracles; the filesystem is
modelled as lists of file and directory paths.

Modelling conventions:
* Paths use `/` as the (single-character) separator, as `os.sep` on POSIX.
  `os.path.join`, `os.path.dirname`, `os.path.relpath`, `str.rstrip(os.sep)`
  are translated character-for-character from CPython's `posixpath`.
  `relpath` is modelled in full: both arguments are normalised into their
  path components as `posixpath.abspath` does (empty and `.` components
  dropped, `..` pops the previous component), the common prefix is removed,
  and `..` components are prepended for the remaining start components.  The
  model fixes the process working directory at the filesystem root, so
  relative paths are anchored at `/`; it is exact for absolute paths, and
  agrees with CPython on relative ones whenever `..` does not climb above
  the working directory.
* `os.walk` over the output directory is modelled as filtering the flat list
  of files on disk by the directory prefix.
* `os.makedirs` is modelled as always succeeding (directory-creation I/O
  failures are outside the model).
* The shared abort flag is modelled as a function from poll index to `Bool`;
  the worker polls it once at the head of each per-item loop iteration and
  once in the archive-step guard, exactly where the source reads
  `self.abort_flag`.
-/

/-! ## Character and path-string utilities (models of the Python primitives) -/

/-- Test for the path separator character. -/
def isSlash (c : Char) : Bool := c == '/'

/-- Whether a character list ends with the path separator
(model of `s.endswith(os.sep)` respectively a trailing separator check). -/
def lastIsSlash (l : List Char) : Bool := l.reverse.head? == some '/'

/-- Whitespace stripped by Python's `str.strip()`, exact on the Latin-1
range: `\t`–`\r`, space, the separator controls `\x1c`–`\x1f`, NEL `\x85`
and NBSP `\xa0`.  Unicode space characters above the Latin-1 range are
outside the model. -/
def pyWhitespaceChar (c : Char) : Bool :=
  let n := c.toNat
  (9 ≤ n && n ≤ 13) || n == 32 || (28 ≤ n && n ≤ 31) || n == 0x85 || n == 0xA0

/-- Model of Python `str.strip()` on a character list. -/
def pyStripL (l : List Char) : List Char :=
  ((l.dropWhile pyWhitespaceChar).reverse.dropWhile pyWhitespaceChar).reverse

/-- Model of Python `str.strip()`. -/
def pyStrip (s : String) : String := String.mk (pyStripL s.toList)

/-- Model of Python `str.split(",")` on a character list: splits at every
comma, keeping empty pieces. -/
def splitCommaL : List Char → List (List Char)
  | [] => [[]]
  | ',' :: rest => [] :: splitCommaL rest
  | c :: rest =>
    match splitCommaL rest with
    | [] => [[c]]
    | h :: t => (c :: h) :: t

/-- Model of `str.rstrip(os.sep)` on a character list: removes every trailing
separator character. -/
def rstripSlashL (l : List Char) : List Char := (l.reverse.dropWhile isSlash).reverse

/-- Characters of the last path component (model of `os.path.basename`). -/
def basenameL (l : List Char) : List Char :=
  (l.reverse.takeWhile (fun c => !isSlash c)).reverse

/-- Everything up to and including the last separator (the `head` computed
inside CPython's `posixpath.dirname` before its trailing-separator strip). -/
def headPartL (l : List Char) : List Char :=
  (l.reverse.dropWhile (fun c => !isSlash c)).reverse

/-- Model of `os.path.dirname`: the part before the last separator, with
trailing separators stripped unless the result consists only of separators. -/
def dirnameL (l : List Char) : List Char :=
  let h := headPartL l
  if h.all isSlash then h else rstripSlashL h

/-- Splitting a path at every separator, keeping empty pieces
(model of `s.split(sep)`). -/
def splitSlashRaw : List Char → List (List Char)
  | [] => [[]]
  | c :: rest =>
    if c = '/' then [] :: splitSlashRaw rest
    else
      match splitSlashRaw rest with
      | [] => [[c]]
      | h :: t => (c :: h) :: t

/-- The non-empty components of a path
(model of `[x for x in s.split(sep) if x]` inside `posixpath.relpath`). -/
def splitSlashL (l : List Char) : List (List Char) :=
  (splitSlashRaw l).filter (fun c => !c.isEmpty)

/-- One step of `posixpath.normpath` on a component list anchored at the
root: `.` is dropped and `..` pops the previous component (or is dropped at
the root, as for absolute paths). -/
def normStep (acc : List (List Char)) (comp : List Char) : List (List Char) :=
  if comp = ['.'] then acc
  else if comp = ['.', '.'] then acc.dropLast
  else acc ++ [comp]

/-- The normalised absolute components of a path: what
`posixpath.abspath(p).split(sep)` yields (without empty pieces) under the
convention that the working directory is the root. -/
def absComps (l : List Char) : List (List Char) :=
  (splitSlashL l).foldl normStep []

/-- Length of the longest common prefix of two component lists
(model of `len(commonprefix([start_list, path_list]))`). -/
def commonPrefixLen : List (List Char) → List (List Char) → Nat
  | a :: as, b :: bs => if a = b then commonPrefixLen as bs + 1 else 0
  | _, _ => 0

/-- Joining relative components with single separators
(model of `join(*rel_list)` for plain component names). -/
def joinComps : List (List Char) → List Char
  | [] => []
  | [c] => c
  | c :: rest => c ++ '/' :: joinComps rest

/-- Model of `posixpath.relpath p start`: normalise both paths into absolute
components, drop their common prefix, and go up once per remaining start
component. -/
def relpathL (p start : List Char) : List Char :=
  let sl := absComps start
  let pl := absComps p
  let i := commonPrefixLen sl pl
  let rel := List.replicate (sl.length - i) ['.', '.'] ++ pl.drop i
  if rel.isEmpty then ['.'] else joinComps rel

/-- A plain path-component name: non-empty, separator-free and neither `.`
nor `..` — the names a real directory entry can have. -/
def plainCompL (c : List Char) : Bool :=
  !c.isEmpty && c.all (fun x => !isSlash x) && !(c == ['.']) && !(c == ['.', '.'])

/-- The relative part of a well-formed walked file path: at least one
component, all of them plain names. -/
def plainRestL (r : List Char) : Bool :=
  !(splitSlashL r).isEmpty && (splitSlashL r).all plainCompL

/-- Model of `os.path.join a b` (POSIX rules, single separator). -/
def joinL (a b : List Char) : List Char :=
  if b.head? == some '/' then b
  else if a.isEmpty then b
  else if lastIsSlash a then a ++ b
  else a ++ '/' :: b

/-- Whether path `p` lies strictly inside directory `d` (the set of files that
`os.walk d` reaches, expressed on the flat file list). -/
def underDirL (d p : List Char) : Bool :=
  (if lastIsSlash d then d else d ++ ['/']).isPrefixOf p

/-- String-level `os.path.join`. -/
def pathJoin (a b : String) : String := String.mk (joinL a.toList b.toList)

/-- String-level `str.rstrip(os.sep)`. -/
def rstripSep (s : String) : String := String.mk (rstripSlashL s.toList)

/-- String-level `os.path.basename`. -/
def basename (s : String) : String := String.mk (basenameL s.toList)

/-- String-level `os.path.dirname`. -/
def dirname (s : String) : String := String.mk (dirnameL s.toList)

/-- String-level `os.path.relpath`. -/
def relpath (p start : String) : String := String.mk (relpathL p.toList start.toList)

/-- String-level directory-membership test used to model `os.walk`. -/
def underDir (d p : String) : Bool := underDirL d.toList p.toList

/-- Character-wise string prefix test. -/
def strPrefixOf (a b : String) : Bool := a.toList.isPrefixOf b.toList

/-- Character-wise string suffix test (model of `str.endswith` and of the
`*.dmp` glob pattern, which matches exactly the names ending in `.dmp`). -/
def strEndsWith (s t : String) : Bool := t.toList.isSuffixOf s.toList

/-- A plain file or directory name, as every real directory entry is. -/
def plainName (s : String) : Bool := plainCompL s.toList

/-! ## The name sanitizer

Source line 183:
`safe_name = "".join(c if c.isalnum() or c in "._-" else "_" for c in log_name)`
-/

/-- Model of Python `str.isalnum` for a single character.  It is exact on the
Latin-1 range (code points below `0x100`): the ASCII digits and letters, the
Latin-1 letters (U+00AA, U+00B5, U+00BA, U+00C0–U+00D6, U+00D8–U+00F6,
U+00F8–U+00FF) and the Latin-1 numeric characters (U+00B2, U+00B3, U+00B9,
U+00BC–U+00BE).  Characters above the Latin-1 range (whose Unicode category
tables are outside the model) are treated as non-alphanumeric; no theorem in
this file depends on them. -/
def pyIsAlnum (c : Char) : Bool :=
  let n := c.toNat
  (48 ≤ n && n ≤ 57) || (65 ≤ n && n ≤ 90) || (97 ≤ n && n ≤ 122) ||
  n == 0xAA || n == 0xB5 || n == 0xBA ||
  n == 0xB2 || n == 0xB3 || n == 0xB9 ||
  (0xBC ≤ n && n ≤ 0xBE) ||
  (0xC0 ≤ n && n ≤ 0xD6) || (0xD8 ≤ n && n ≤ 0xF6) || (0xF8 ≤ n && n ≤ 0xFF)

/-- The characters the sanitizer keeps: `c.isalnum() or c in "._-"`. -/
def keepChar (c : Char) : Bool := pyIsAlnum c || c == '.' || c == '_' || c == '-'

/-- Per-character action of the sanitizer. -/
def sanCh (c : Char) : Char := if keepChar c then c else '_'

/-- The name sanitizer of source line 183. -/
def sanitize (s : String) : String := String.mk (s.toList.map sanCh)

/-- The character set `[A-Za-z0-9._-]` named by the specification. -/
def asciiAllowed (c : Char) : Bool :=
  let n := c.toNat
  (65 ≤ n && n ≤ 90) || (97 ≤ n && n ≤ 122) || (48 ≤ n && n ≤ 57) ||
  n == 46 || n == 95 || n == 45

/-! ## Request parsing and validation -/

/-- The inputs read from the form at the start of `_collect_worker`
(`CollectionRequest` of the specification, in raw textual form). -/
structure Request where
  logNamesRaw : String
  outputDirRaw : String
  includeCrashDumps : Bool
  crashDumpDirRaw : String
  createZip : Bool
  deriving Repr, DecidableEq

/-- Model of `_parse_log_names` (source lines 150–154): strip the raw field,
return `[]` if blank, otherwise split on commas, strip each piece and keep the
non-blank ones. -/
def parseLogNames (raw : String) : List String :=
  let r := pyStripL raw.toList
  if r = [] then []
  else (((splitCommaL r).map pyStripL).filter (fun n => n ≠ [])).map String.mk

/-- Model of `_validate` (source lines 156–164): at least one parsed log name
and a non-blank stripped output directory. -/
def validate (req : Request) : Bool :=
  match parseLogNames req.logNamesRaw with
  | [] => false
  | _ :: _ => pyStrip req.outputDirRaw != ""

/-! ## The pipeline state and environment -/

/-- Result of one `subprocess.run` invocation of the export tool, as
distinguished by the `try/except` of source lines 186–203.  A completed
invocation carries the tool's exit status, which the code never inspects. -/
inductive InvokeResult where
  | completed (exitCode : Int)
  | fileNotFound
  | timedOut
  | otherError (msg : String)
  deriving Repr, DecidableEq

/-- One recorded external-process invocation: the argument vector passed to
`subprocess.run` and the timeout applied to it. -/
structure Invocation where
  cmd : List String
  timeoutSecs : Nat
  deriving Repr, DecidableEq

/-- The filesystem, modelled as the list of file paths and directory paths
present on disk. -/
structure FS where
  files : List String
  dirs : List String
  deriving Repr, DecidableEq

/-- The environment of oracles for one run: the outcome of invoking the export
tool on each log name, the crash-dump directory check and listing, per-file
copy success, archive-write success, and the abort flag as seen by the n-th
poll. -/
structure Env where
  invoke : String → InvokeResult
  crashDirIsDir : Bool
  crashDirEntries : List String
  copyOk : String → Bool
  copyMsg : String → String
  zipOk : Bool
  zipMsg : String
  abort : Nat → Bool

/-- Destination path of one log export:
`evtx_path = os.path.join(out_dir, f"{safe_name}.evtx")` (source line 184). -/
def evtxPath (outDir n : String) : String := pathJoin outDir (sanitize n ++ ".evtx")

/-- The `subprocess.run` call of source lines 187–193:
`["wevtutil", "epl", log_name, evtx_path, "/ow:true"]` with `timeout=120`. -/
def mkInvocation (outDir n : String) : Invocation :=
  ⟨["wevtutil", "epl", n, evtxPath outDir n, "/ow:true"], 120⟩

/-- Result of handling a single log name: the invocation made, the outcome log
line, and the files newly on disk. -/
structure StepRes where
  inv : Invocation
  line : String
  newFiles : List String
  deriving Repr, DecidableEq

/-- Handling of one log name (body of the loop at source lines 180–203): one
invocation, one outcome log line chosen by the `except` clauses, and — when
the invocation completed, regardless of the tool's exit status — the exported
file on disk. -/
def exportStep (env : Env) (outDir n : String) : StepRes :=
  let p := evtxPath outDir n
  { inv := mkInvocation outDir n
    line :=
      match env.invoke n with
      | .completed _ => "  -> " ++ p
      | .fileNotFound => "  Skipped (wevtutil not found or not Windows): " ++ n
      | .timedOut => "  Timeout: " ++ n
      | .otherError msg => "  Error: " ++ msg
    newFiles :=
      match env.invoke n with
      | .completed _ => [p]
      | _ => [] }

/-- Aggregate result of the export loop. -/
structure ExpRes where
  invs : List Invocation
  lines : List String
  newFiles : List String
  polls : Nat
  deriving Repr, DecidableEq

/-- The export loop (source lines 180–203): polls the abort flag at the head
of each iteration and breaks when it is set; otherwise logs the attempt,
invokes the tool and logs the outcome.  `k` numbers the abort-flag polls. -/
def exportPhase (env : Env) (outDir : String) : List String → Nat → ExpRes
  | [], k => ⟨[], [], [], k⟩
  | n :: rest, k =>
    if env.abort k then ⟨[], [], [], k + 1⟩
    else
      let s := exportStep env outDir n
      let r := exportPhase env outDir rest (k + 1)
      ⟨s.inv :: r.invs,
       ("Exporting " ++ n ++ " -> " ++ evtxPath outDir n) :: s.line :: r.lines,
       s.newFiles ++ r.newFiles,
       r.polls⟩

/-- Invocations the export loop makes when it is never aborted. -/
def expInvs (outDir : String) (names : List String) : List Invocation :=
  names.map (mkInvocation outDir)

/-- Log lines the export loop emits when it is never aborted. -/
def expLines (env : Env) (outDir : String) (names : List String) : List String :=
  names.foldr
    (fun n acc =>
      ("Exporting " ++ n ++ " -> " ++ evtxPath outDir n) :: (exportStep env outDir n).line :: acc)
    []

/-- Files the export loop leaves on disk when it is never aborted. -/
def expFiles (env : Env) (outDir : String) (names : List String) : List String :=
  names.foldr (fun n acc => (exportStep env outDir n).newFiles ++ acc) []

/-- Aggregate result of the crash-dump copy loop. -/
structure CopyRes where
  copied : List String
  lines : List String
  count : Nat
  polls : Nat
  deriving Repr, DecidableEq

/-- The crash-dump copy loop (source lines 211–219): polls the abort flag at
the head of each iteration; a successful `shutil.copy2` adds the destination
file and increments the count, a failing one logs a skip line and continues. -/
def copyPhase (env : Env) (crashOut : String) : List String → Nat → CopyRes
  | [], k => ⟨[], [], 0, k⟩
  | f :: rest, k =>
    if env.abort k then ⟨[], [], 0, k + 1⟩
    else if env.copyOk f then
      let r := copyPhase env crashOut rest (k + 1)
      ⟨pathJoin crashOut f :: r.copied, r.lines, r.count + 1, r.polls⟩
    else
      let r := copyPhase env crashOut rest (k + 1)
      ⟨r.copied, ("  Skip " ++ f ++ ": " ++ env.copyMsg f) :: r.lines, r.count, r.polls⟩

/-- The crash-dump directory entries matched by `Path(crash_dir).glob("*.dmp")`:
the names ending in `.dmp` (non-recursive). -/
def dmpFiles (env : Env) : List String :=
  env.crashDirEntries.filter (fun f => strEndsWith f ".dmp")

/-- Result of the crash-dump section. -/
structure CopySec where
  fs : FS
  lines : List String
  dumpCount : Option Nat
  copied : List String
  polls : Nat
  deriving Repr, DecidableEq

/-- The crash-dump section (source lines 205–223): runs only when the include
flag is set, the stripped directory is non-blank and `os.path.isdir` holds; it
then creates the `CrashDumps` subdirectory, copies the matching files and logs
the count.  Otherwise, if the flag is set, it logs the missing-directory
message. -/
def copySection (env : Env) (req : Request) (outDir crashDir : String) (fs2 : FS) (k1 : Nat) :
    CopySec :=
  if req.includeCrashDumps && crashDir != "" && env.crashDirIsDir then
    let crashOut := pathJoin outDir "CrashDumps"
    let cr := copyPhase env crashOut (dmpFiles env) k1
    ⟨⟨fs2.files ++ cr.copied, fs2.dirs ++ [crashOut]⟩,
     "Copying crash dumps..." :: (cr.lines ++ ["  Copied " ++ toString cr.count ++ " crash dump(s)."]),
     some cr.count, cr.copied, cr.polls⟩
  else
    ⟨fs2,
     if req.includeCrashDumps && (crashDir == "" || !env.crashDirIsDir) then
       ["Crash dump folder missing or invalid; skipped."]
     else [],
     none, [], k1⟩

/-- The archive entries: every file under the output directory, stored under
its path relative to `os.path.dirname` of the output directory
(source lines 231–235). -/
def zipEntries (outDir : String) (files : List String) : List (String × String) :=
  (files.filter (fun p => underDir outDir p)).map (fun p => (p, relpath p (dirname outDir)))

/-- Result of the archive section. -/
structure ZipSec where
  fs : FS
  lines : List String
  result : Option (String × List (String × String))
  deriving Repr, DecidableEq

/-- The archive section (source lines 226–238): runs only when the ZIP flag is
set and the abort flag is not; the archive path is the output directory with
trailing separators stripped plus `_EventLogsAndDumps.zip`; any failure is
caught and logged. -/
def zipSection (env : Env) (req : Request) (outDir : String) (fs3 : FS) (k2 : Nat) : ZipSec :=
  if req.createZip && !env.abort k2 then
    let zipPath := rstripSep outDir ++ "_EventLogsAndDumps.zip"
    if env.zipOk then
      ⟨⟨fs3.files ++ [zipPath], fs3.dirs⟩,
       ["Creating ZIP: " ++ zipPath, "  -> " ++ zipPath],
       some (zipPath, zipEntries outDir fs3.files)⟩
    else
      ⟨fs3, ["Creating ZIP: " ++ zipPath, "  ZIP error: " ++ env.zipMsg], none⟩
  else ⟨fs3, [], none⟩

/-- Observable outcome of one worker run. -/
structure Output where
  fs : FS
  invocations : List Invocation
  logLines : List String
  copies : List String
  dumpCount : Option Nat
  zipResult : Option (String × List (String × String))
  statusUpdates : List String
  deriving Repr, DecidableEq

/-- The worker `_collect_worker` (source lines 166–240): validate (returning
with no side effect on failure), create the output directory, run the export
loop, the crash-dump section and the archive section, and finally set the
status to `"Done."`. -/
def collectWorker (req : Request) (env : Env) (fs0 : FS) : Output :=
  if validate req then
    let outDir := pyStrip req.outputDirRaw
    let names := parseLogNames req.logNamesRaw
    let crashDir := pyStrip req.crashDumpDirRaw
    let er := exportPhase env outDir names 0
    let fs2 : FS := ⟨fs0.files ++ er.newFiles, fs0.dirs ++ [outDir]⟩
    let cs := copySection env req outDir crashDir fs2 er.polls
    let zs := zipSection env req outDir cs.fs cs.polls
    { fs := zs.fs
      invocations := er.invs
      logLines := "Creating output directory..." :: (er.lines ++ cs.lines ++ zs.lines)
      copies := cs.copied
      dumpCount := cs.dumpCount
      zipResult := zs.result
      statusUpdates := ["Collecting...", "Done."] }
  else
    { fs := fs0, invocations := [], logLines := [], copies := [], dumpCount := none,
      zipResult := none, statusUpdates := [] }

/-! ## Concrete fixtures used by witnesses and counterexamples -/

/-- The empty filesystem. -/
def emptyFS : FS := ⟨[], []⟩

/-- A benign environment: every invocation completes, no crash-dump
directory, every copy succeeds, archiving succeeds, abort never set. -/
def baseEnv : Env :=
  { invoke := fun _ => .completed 0
    crashDirIsDir := false
    crashDirEntries := []
    copyOk := fun _ => true
    copyMsg := fun _ => ""
    zipOk := true
    zipMsg := ""
    abort := fun _ => false }

/-! ## Sanitizer lemmas -/

/-- Characters the sanitizer keeps stay kept: the underscore replacement and
every kept character satisfy the keep test. -/
theorem keepChar_sanCh (c : Char) : keepChar (sanCh c) = true := by
  unfold sanCh
  cases hk : keepChar c
  · rw [if_neg (by simp)]; decide
  · rw [if_pos rfl]; exact hk

/-- The per-character sanitizer action is idempotent. -/
theorem sanCh_idem (c : Char) : sanCh (sanCh c) = sanCh c := by
  have h := keepChar_sanCh c
  unfold sanCh at h ⊢
  rw [if_pos h]

/-- Kept ASCII characters lie in the specification's set `[A-Za-z0-9._-]`. -/
theorem keepChar_ascii (c : Char) (h : c.toNat < 128) (hk : keepChar c = true) :
    asciiAllowed c = true := by
  simp only [keepChar, Bool.or_eq_true, beq_iff_eq] at hk
  simp only [asciiAllowed, Bool.or_eq_true, Bool.and_eq_true, decide_eq_true_eq, beq_iff_eq]
  rcases hk with ((hp | h1) | h2) | h3
  · simp only [pyIsAlnum, Bool.or_eq_true, Bool.and_eq_true, decide_eq_true_eq,
      beq_iff_eq] at hp
    omega
  · subst h1; decide
  · subst h2; decide
  · subst h3; decide

/-- The sanitizer's output characters all satisfy the keep test. -/
theorem sanitize_chars_kept (s : String) : ∀ c ∈ (sanitize s).toList, keepChar c = true := by
  intro c hc
  simp only [sanitize, String.toList, List.mem_map] at hc
  obtain ⟨c', _, rfl⟩ := hc
  exact keepChar_sanCh c'

/-! ## Claim C4 (corrected) and claim C9 -/

/-- Claim C4, counterexample: the claim states that for every input string the
sanitizer's output contains only characters from `[A-Za-z0-9._-]`.  It is
false: Python's `str.isalnum` is Unicode-aware, so the letter `é` (U+00E9,
alphanumeric for Python) passes through the sanitizer unchanged, and `é` is
not in `[A-Za-z0-9._-]`. -/
theorem c4_unicode_counterexample :
    sanitize "é" = "é" ∧ 'é' ∈ (sanitize "é").toList ∧ asciiAllowed 'é' = false := by
  refine ⟨by decide, by decide, by decide⟩

/-- Claim C4, amended: every character of the input that is not kept by the
code's test (Python-alphanumeric or one of `._-`) is replaced by an
underscore, every output character satisfies that keep test, and for inputs
consisting of ASCII characters the output contains only `[A-Za-z0-9._-]`. -/
theorem c4_sanitizer_charset :
    (∀ s : String, (sanitize s).toList = s.toList.map (fun c => if keepChar c then c else '_')) ∧
    (∀ s : String, ∀ c ∈ (sanitize s).toList, keepChar c = true) ∧
    (∀ s : String, (∀ c ∈ s.toList, c.toNat < 128) →
      ∀ c ∈ (sanitize s).toList, asciiAllowed c = true) := by
  refine ⟨fun s => rfl, sanitize_chars_kept, fun s hascii c hc => ?_⟩
  simp only [sanitize, String.toList, List.mem_map] at hc
  obtain ⟨c', hc', rfl⟩ := hc
  have hlt : (sanCh c').toNat < 128 := by
    unfold sanCh
    cases hk : keepChar c'
    · rw [if_neg (by simp)]; decide
    · rw [if_pos rfl]; exact hascii c' hc'
  exact keepChar_ascii _ hlt (keepChar_sanCh c')

/-- Claim C4, witness: instantiating the ASCII part at the string `"Ab?c"`,
whose sanitized form contains the replacement underscore. -/
theorem c4_sanitizer_charset_witness : asciiAllowed '_' = true :=
  c4_sanitizer_charset.2.2 "Ab?c" (by decide) '_' (by decide)

/-- Claim C9: the sanitizer is idempotent, and it is the identity on strings
all of whose characters it keeps. -/
theorem c9_sanitizer_idempotent :
    (∀ s : String, sanitize (sanitize s) = sanitize s) ∧
    (∀ s : String, (∀ c ∈ s.toList, keepChar c = true) → sanitize s = s) := by
  constructor
  · intro s
    show String.mk ((s.toList.map sanCh).map sanCh) = String.mk (s.toList.map sanCh)
    rw [List.map_map]
    exact congrArg String.mk (List.map_congr_left (fun c _ => sanCh_idem c))
  · intro s h
    show String.mk (s.toList.map sanCh) = s
    have h1 : s.toList.map sanCh = s.toList.map id :=
      List.map_congr_left (fun c hc => by unfold sanCh; rw [if_pos (h c hc)]; rfl)
    rw [h1, List.map_id]
    rfl

/-- Claim C9, witness: idempotence at `"My Log?"` and identity at the
already-clean string `"Sys.1-x_"`. -/
theorem c9_sanitizer_idempotent_witness :
    sanitize (sanitize "My Log?") = sanitize "My Log?" ∧ sanitize "Sys.1-x_" = "Sys.1-x_" :=
  ⟨c9_sanitizer_idempotent.1 "My Log?", c9_sanitizer_idempotent.2 "Sys.1-x_" (by decide)⟩

/-! ## Phase lemmas for the export and copy loops -/

/-- The export loop without aborts processes every name in order. -/
theorem exportPhase_noAbort (env : Env) (outDir : String)
    (ha : ∀ i, env.abort i = false) :
    ∀ (names : List String) (k : Nat),
      exportPhase env outDir names k =
        ⟨expInvs outDir names, expLines env outDir names, expFiles env outDir names,
         k + names.length⟩ := by
  intro names
  induction names with
  | nil => intro k; simp [exportPhase, expInvs, expLines, expFiles]
  | cons n rest ih =>
    intro k
    simp only [exportPhase, ha k, if_false, ih (k + 1), expInvs, expLines, expFiles,
      List.map_cons, List.foldr_cons, List.length_cons, Bool.false_eq_true,
      ExpRes.mk.injEq, true_and, and_true]
    exact ⟨rfl, by omega⟩

/-- The export loop under an abort flag that turns on at poll `m` processes
exactly the names before position `m`. -/
theorem exportPhase_abortAt (env : Env) (outDir : String) (m : Nat)
    (ha : ∀ i, env.abort i = decide (m ≤ i)) :
    ∀ (names : List String) (k : Nat), k ≤ m →
      exportPhase env outDir names k =
        ⟨expInvs outDir (names.take (m - k)), expLines env outDir (names.take (m - k)),
         expFiles env outDir (names.take (m - k)), min (k + names.length) (m + 1)⟩ := by
  intro names
  induction names with
  | nil =>
    intro k hk
    simp [exportPhase, expInvs, expLines, expFiles]
    omega
  | cons n rest ih =>
    intro k hk
    rcases Nat.eq_or_lt_of_le hk with he | hlt
    · subst he
      have hab : env.abort k = true := by rw [ha]; simp
      simp only [exportPhase, hab, if_true]
      have h0 : k - k = 0 := by omega
      simp only [h0, List.take_zero, expInvs, expLines, expFiles, List.map_nil,
        List.foldr_nil, List.length_cons, ExpRes.mk.injEq, true_and]
      omega
    · have hab : env.abort k = false := by rw [ha]; simp; omega
      have htake : (n :: rest).take (m - k) = n :: rest.take (m - (k + 1)) := by
        have hmk : m - k = (m - (k + 1)) + 1 := by omega
        rw [hmk, List.take_succ_cons]
      simp only [exportPhase, hab, if_false, ih (k + 1) hlt, htake, expInvs, expLines,
        expFiles, List.map_cons, List.foldr_cons, List.length_cons, Bool.false_eq_true,
        ExpRes.mk.injEq, true_and, and_true]
      exact ⟨rfl, by omega⟩

/-- Membership of each outcome log line in the no-abort export log. -/
theorem mem_expLines (env : Env) (outDir : String) :
    ∀ (names : List String), ∀ n ∈ names,
      (exportStep env outDir n).line ∈ expLines env outDir names := by
  intro names
  induction names with
  | nil => intro n h; cases h
  | cons a rest ih =>
    intro n h
    rcases List.mem_cons.mp h with rfl | h2
    · exact List.mem_cons_of_mem _ (List.mem_cons_self _ _)
    · exact List.mem_cons_of_mem _ (List.mem_cons_of_mem _ (ih n h2))

/-- The copy loop's reported count always equals the number of files copied. -/
theorem copyPhase_count_eq_length (env : Env) (d : String) :
    ∀ (l : List String) (k : Nat),
      (copyPhase env d l k).count = (copyPhase env d l k).copied.length := by
  intro l
  induction l with
  | nil => intro k; simp [copyPhase]
  | cons f rest ih =>
    intro k
    by_cases hab : env.abort k = true
    · simp [copyPhase, hab]
    · have hab' : env.abort k = false := by revert hab; cases env.abort k <;> simp
      by_cases hok : env.copyOk f = true
      · simp [copyPhase, hab', hok, ih (k + 1)]
      · have hok' : env.copyOk f = false := by revert hok; cases env.copyOk f <;> simp
        simp [copyPhase, hab', hok', ih (k + 1)]

/-- The copy loop without aborts and with every copy succeeding copies every
file in order. -/
theorem copyPhase_noAbort_ok (env : Env) (d : String)
    (ha : ∀ i, env.abort i = false) (hc : ∀ f, env.copyOk f = true) :
    ∀ (l : List String) (k : Nat),
      copyPhase env d l k = ⟨l.map (fun f => pathJoin d f), [], l.length, k + l.length⟩ := by
  intro l
  induction l with
  | nil => intro k; simp [copyPhase]
  | cons f rest ih =>
    intro k
    simp only [copyPhase, ha k, hc f, if_true, if_false, ih (k + 1), List.map_cons,
      List.length_cons, Bool.false_eq_true, CopyRes.mk.injEq, true_and, and_true]
    omega

/-- The copy loop copies nothing once the abort flag is set. -/
theorem copyPhase_aborted (env : Env) (d : String) (l : List String) (k : Nat)
    (h : env.abort k = true) :
    (copyPhase env d l k).copied = [] ∧ (copyPhase env d l k).lines = [] ∧
      (copyPhase env d l k).count = 0 := by
  cases l <;> simp [copyPhase, h]

/-- The copy loop's final poll index never goes backwards. -/
theorem copyPhase_polls_ge (env : Env) (d : String) :
    ∀ (l : List String) (k : Nat), k ≤ (copyPhase env d l k).polls := by
  intro l
  induction l with
  | nil => intro k; simp [copyPhase]
  | cons f rest ih =>
    intro k
    by_cases hab : env.abort k = true
    · simp [copyPhase, hab]
    · have hab' : env.abort k = false := by revert hab; cases env.abort k <;> simp
      by_cases hok : env.copyOk f = true
      · simp only [copyPhase, hab', hok, if_true, if_false, Bool.false_eq_true]
        exact le_trans (Nat.le_succ k) (ih (k + 1))
      · have hok' : env.copyOk f = false := by revert hok; cases env.copyOk f <;> simp
        simp only [copyPhase, hab', hok', if_true, if_false, Bool.false_eq_true]
        exact le_trans (Nat.le_succ k) (ih (k + 1))

/-! ## Section lemmas -/

/-- The crash-dump section copies nothing once the abort flag is set at its
entry poll index, and its poll index never goes backwards. -/
theorem copySection_aborted (env : Env) (req : Request) (outDir crashDir : String)
    (fs2 : FS) (k1 : Nat) (h : env.abort k1 = true) :
    (copySection env req outDir crashDir fs2 k1).copied = [] ∧
    (copySection env req outDir crashDir fs2 k1).fs.files = fs2.files ∧
    k1 ≤ (copySection env req outDir crashDir fs2 k1).polls := by
  unfold copySection
  split
  · have h2 := copyPhase_aborted env (pathJoin outDir "CrashDumps") (dmpFiles env) k1 h
    have h3 := copyPhase_polls_ge env (pathJoin outDir "CrashDumps") (dmpFiles env) k1
    simp [h2.1, h3]
  · simp

/-- The crash-dump section's poll index never goes backwards. -/
theorem copySection_polls_ge (env : Env) (req : Request) (outDir crashDir : String)
    (fs2 : FS) (k1 : Nat) :
    k1 ≤ (copySection env req outDir crashDir fs2 k1).polls := by
  unfold copySection
  split
  · exact copyPhase_polls_ge env (pathJoin outDir "CrashDumps") (dmpFiles env) k1
  · simp

/-- The archive section never touches the directory list. -/
theorem zipSection_dirs (env : Env) (req : Request) (outDir : String) (fs3 : FS) (k2 : Nat) :
    (zipSection env req outDir fs3 k2).fs.dirs = fs3.dirs := by
  unfold zipSection
  split
  · split <;> rfl
  · rfl

/-- The archive section does nothing once the abort flag is set at its poll
index. -/
theorem zipSection_aborted (env : Env) (req : Request) (outDir : String) (fs3 : FS)
    (k2 : Nat) (h : env.abort k2 = true) :
    zipSection env req outDir fs3 k2 = ⟨fs3, [], none⟩ := by
  unfold zipSection
  simp [h]

/-! ## Claims C10, C7, C1, C5 -/

/-- Claim C10: for every run that passes validation — whatever the
environment does, including an abort flag that is set at every poll — the
worker's terminal status is the string `"Done."` after `"Collecting..."`,
and no distinct aborted terminal status is ever reported. -/
theorem c10_terminal_status_done (req : Request) (env : Env) (fs0 : FS)
    (hv : validate req = true) :
    (collectWorker req env fs0).statusUpdates = ["Collecting...", "Done."] := by
  simp [collectWorker, hv]

/-- An environment whose abort flag is set at every poll. -/
def abortedEnv : Env := { baseEnv with abort := fun _ => true }

/-- Claim C10, witness: a fully aborted run still terminates with status
`"Done."`. -/
theorem c10_terminal_status_done_witness :
    (collectWorker ⟨"Application, System", "/out", true, "/dumps", true⟩ abortedEnv
        emptyFS).statusUpdates = ["Collecting...", "Done."] :=
  c10_terminal_status_done _ abortedEnv emptyFS (by decide)

/-- Claim C7: a request whose log-name list parses to the empty list or whose
stripped output directory is blank is rejected by validation with no side
effect at all: the filesystem is untouched, nothing is invoked, copied or
archived, and no status is pushed. -/
theorem c7_validation_rejects (req : Request) (env : Env) (fs0 : FS)
    (h : parseLogNames req.logNamesRaw = [] ∨ pyStrip req.outputDirRaw = "") :
    collectWorker req env fs0 =
      { fs := fs0, invocations := [], logLines := [], copies := [], dumpCount := none,
        zipResult := none, statusUpdates := [] } := by
  have hv : validate req = false := by
    unfold validate
    rcases h with h | h
    · rw [h]
    · cases hp : parseLogNames req.logNamesRaw with
      | nil => rfl
      | cons a l => simp [h]
  simp [collectWorker, hv]

/-- Claim C7, witness: a request with only blank log names is rejected and a
pre-populated filesystem is left exactly as it was. -/
theorem c7_validation_rejects_witness :
    collectWorker ⟨" , ,", "/out", true, "/dumps", true⟩ baseEnv ⟨["/pre/f.txt"], ["/pre"]⟩ =
      { fs := ⟨["/pre/f.txt"], ["/pre"]⟩, invocations := [], logLines := [], copies := [],
        dumpCount := none, zipResult := none, statusUpdates := [] } :=
  c7_validation_rejects _ baseEnv _ (Or.inl (by decide))

/-- Claim C1: in a validated, non-aborted run, whatever the per-name
invocation outcomes are — including failures — the pipeline attempts every
requested log name in order, each outcome (success or failure) is converted
into a log line present in the log, and the run terminates with status
`"Done."` rather than an error state. -/
theorem c1_no_step_failure_fatal (req : Request) (env : Env) (fs0 : FS)
    (hv : validate req = true) (ha : ∀ i, env.abort i = false) :
    (collectWorker req env fs0).invocations =
      (parseLogNames req.logNamesRaw).map (mkInvocation (pyStrip req.outputDirRaw)) ∧
    (∀ n ∈ parseLogNames req.logNamesRaw,
      (exportStep env (pyStrip req.outputDirRaw) n).line ∈ (collectWorker req env fs0).logLines) ∧
    (collectWorker req env fs0).statusUpdates = ["Collecting...", "Done."] := by
  have hexp := exportPhase_noAbort env (pyStrip req.outputDirRaw) ha
    (parseLogNames req.logNamesRaw) 0
  refine ⟨?_, ?_, ?_⟩
  · simp only [collectWorker, hv, if_true]
    rw [hexp]
    rfl
  · intro n hn
    simp only [collectWorker, hv, if_true]
    rw [hexp]
    have hmem := mem_expLines env (pyStrip req.outputDirRaw) (parseLogNames req.logNamesRaw) n hn
    exact List.mem_cons_of_mem _ (List.mem_append_left _ (List.mem_append_left _ hmem))
  · simp [collectWorker, hv]

/-- An environment in which the export tool is missing for the log name
`"System"` but works for every other name. -/
def notFoundEnv : Env :=
  { baseEnv with invoke := fun n => if n = "System" then .fileNotFound else .completed 0 }

/-- Claim C1, witness: with `wevtutil` missing for the second of three names,
all three names are attempted, the failure appears as a log line, and the run
ends with status `"Done."`. -/
theorem c1_no_step_failure_fatal_witness :
    (collectWorker ⟨"Application, System, Security", "/out", false, "", false⟩ notFoundEnv
        emptyFS).invocations =
      [⟨["wevtutil", "epl", "Application", "/out/Application.evtx", "/ow:true"], 120⟩,
       ⟨["wevtutil", "epl", "System", "/out/System.evtx", "/ow:true"], 120⟩,
       ⟨["wevtutil", "epl", "Security", "/out/Security.evtx", "/ow:true"], 120⟩] ∧
    "  Skipped (wevtutil not found or not Windows): System" ∈
      (collectWorker ⟨"Application, System, Security", "/out", false, "", false⟩ notFoundEnv
        emptyFS).logLines ∧
    (collectWorker ⟨"Application, System, Security", "/out", false, "", false⟩ notFoundEnv
        emptyFS).statusUpdates = ["Collecting...", "Done."] := by
  have h := c1_no_step_failure_fatal ⟨"Application, System, Security", "/out", false, "", false⟩
    notFoundEnv emptyFS (by decide) (fun i => rfl)
  refine ⟨h.1.trans (by decide), ?_, h.2.2⟩
  have hmem := h.2.1 "System" (by decide)
  have hline : (exportStep notFoundEnv (pyStrip "/out") "System").line =
      "  Skipped (wevtutil not found or not Windows): System" := by decide
  rw [hline] at hmem
  exact hmem

/-- Claim C5: one invocation per log name classifies its outcome
exhaustively.  The invocation always carries the fixed 120-second timeout; the
four cases — completed (treated as success regardless of the exit status),
tool not found, timed out, and any other failure — are mutually exhaustive and
each produces the corresponding log line; and in a non-aborted run the export
loop makes exactly one invocation per requested name, so no outcome is
retried. -/
theorem c5_export_outcome_classification (env : Env) (outDir n : String) :
    (exportStep env outDir n).inv = mkInvocation outDir n ∧
    (mkInvocation outDir n).timeoutSecs = 120 ∧
    ((∃ e, env.invoke n = .completed e) ∨ env.invoke n = .fileNotFound ∨
      env.invoke n = .timedOut ∨ ∃ msg, env.invoke n = .otherError msg) ∧
    (env.invoke n = .fileNotFound →
      (exportStep env outDir n).line = "  Skipped (wevtutil not found or not Windows): " ++ n ∧
      (exportStep env outDir n).newFiles = []) ∧
    (env.invoke n = .timedOut →
      (exportStep env outDir n).line = "  Timeout: " ++ n ∧
      (exportStep env outDir n).newFiles = []) ∧
    (∀ msg, env.invoke n = .otherError msg →
      (exportStep env outDir n).line = "  Error: " ++ msg ∧
      (exportStep env outDir n).newFiles = []) ∧
    (∀ e, env.invoke n = .completed e →
      (exportStep env outDir n).line = "  -> " ++ evtxPath outDir n ∧
      (exportStep env outDir n).newFiles = [evtxPath outDir n]) ∧
    (∀ (names : List String) (k : Nat), (∀ i, env.abort i = false) →
      (exportPhase env outDir names k).invs = names.map (mkInvocation outDir)) := by
  refine ⟨rfl, rfl, ?_, ?_, ?_, ?_, ?_, ?_⟩
  · cases h : env.invoke n with
    | completed e => exact Or.inl ⟨e, rfl⟩
    | fileNotFound => exact Or.inr (Or.inl rfl)
    | timedOut => exact Or.inr (Or.inr (Or.inl rfl))
    | otherError msg => exact Or.inr (Or.inr (Or.inr ⟨msg, rfl⟩))
  · intro h; constructor <;> simp [exportStep, h]
  · intro h; constructor <;> simp [exportStep, h]
  · intro msg h; constructor <;> simp [exportStep, h]
  · intro e h; constructor <;> simp [exportStep, h]
  · intro names k ha
    rw [exportPhase_noAbort env outDir ha names k]
    rfl

/-- An environment in which every invocation of the export tool times out. -/
def timeoutEnv : Env := { baseEnv with invoke := fun _ => .timedOut }

/-- Claim C5, witness: a timed-out invocation of the export tool for the name
`"Setup"` produces the timeout log line, leaves no file, and the invocation
carried the 120-second timeout. -/
theorem c5_export_outcome_classification_witness :
    (exportStep timeoutEnv "/out" "Setup").line = "  Timeout: Setup" ∧
    (exportStep timeoutEnv "/out" "Setup").newFiles = [] ∧
    (mkInvocation "/out" "Setup").timeoutSecs = 120 := by
  have h := c5_export_outcome_classification timeoutEnv "/out" "Setup"
  have ht := h.2.2.2.2.1 rfl
  exact ⟨ht.1.trans (by decide), ht.2, h.2.1⟩

/-- The request of the specification's single-log scenario:
`logNames=["Application"]`, no crash dumps, no archive. -/
def c8Request : Request := ⟨"Application", "/out", false, "", false⟩

/-- Claim C8: the destination of every export is the output directory joined
with the sanitized log name plus `".evtx"` (visible in the recorded
invocation), and the scenario with the single already-clean name
`"Application"`, a working export command and no archive produces exactly the
one new file `/out/Application.evtx` and terminates with status `"Done."`. -/
theorem c8_export_destination_path (env : Env) (fs0 : FS) (ec : Int)
    (ha : ∀ i, env.abort i = false)
    (hi : env.invoke "Application" = .completed ec) :
    (∀ outDir n : String,
      (exportStep env outDir n).inv =
        ⟨["wevtutil", "epl", n, pathJoin outDir (sanitize n ++ ".evtx"), "/ow:true"], 120⟩) ∧
    (collectWorker c8Request env fs0).fs.files = fs0.files ++ ["/out/Application.evtx"] ∧
    (collectWorker c8Request env fs0).statusUpdates = ["Collecting...", "Done."] := by
  have hv : validate c8Request = true := by decide
  have hexp := exportPhase_noAbort env (pyStrip c8Request.outputDirRaw) ha
    (parseLogNames c8Request.logNamesRaw) 0
  refine ⟨fun outDir n => rfl, ?_, ?_⟩
  · simp only [collectWorker, hv, if_true]
    rw [hexp]
    have hcs : c8Request.includeCrashDumps = false := rfl
    have hcz : c8Request.createZip = false := rfl
    simp only [copySection, zipSection, hcs, hcz, Bool.false_and, Bool.and_eq_true,
      if_false, Bool.false_eq_true]
    have hnames : parseLogNames c8Request.logNamesRaw = ["Application"] := by decide
    rw [hnames]
    simp only [expFiles, List.foldr_cons, List.foldr_nil, exportStep, hi]
    have : evtxPath (pyStrip c8Request.outputDirRaw) "Application" = "/out/Application.evtx" := by
      decide
    rw [this]
    simp
  · simp [collectWorker, hv]

/-- Claim C8, witness: the recorded invocation for a name needing
sanitization, and the single-file scenario outcome in the benign
environment. -/
theorem c8_export_destination_path_witness :
    (exportStep baseEnv "/x" "My Log").inv =
      ⟨["wevtutil", "epl", "My Log", "/x/My_Log.evtx", "/ow:true"], 120⟩ ∧
    (collectWorker c8Request baseEnv emptyFS).fs.files = ["/out/Application.evtx"] ∧
    (collectWorker c8Request baseEnv emptyFS).statusUpdates = ["Collecting...", "Done."] := by
  have h := c8_export_destination_path baseEnv emptyFS 0 (fun i => rfl) rfl
  exact ⟨(h.1 "/x" "My Log").trans (by decide), h.2.1.trans (by decide), h.2.2⟩

/-! ## Claim C2 -/

/-- Claim C2: if the abort flag turns on at poll `m` — after the first `m`
requested log names have been processed — then no further export is invoked
(exactly the first `m` names are invoked), no dump file is copied, no archive
is created, and the files exported before the abort are exactly the files on
disk at the end: nothing is rolled back. -/
theorem c2_abort_stops_pipeline (req : Request) (env : Env) (fs0 : FS) (m : Nat)
    (hv : validate req = true)
    (hm : m ≤ (parseLogNames req.logNamesRaw).length)
    (ha : ∀ i, env.abort i = decide (m ≤ i)) :
    (collectWorker req env fs0).invocations =
      ((parseLogNames req.logNamesRaw).take m).map (mkInvocation (pyStrip req.outputDirRaw)) ∧
    (collectWorker req env fs0).copies = [] ∧
    (collectWorker req env fs0).zipResult = none ∧
    (collectWorker req env fs0).fs.files =
      fs0.files ++ expFiles env (pyStrip req.outputDirRaw)
        ((parseLogNames req.logNamesRaw).take m) := by
  have hexp := exportPhase_abortAt env (pyStrip req.outputDirRaw) m ha
    (parseLogNames req.logNamesRaw) 0 (Nat.zero_le m)
  have hm0 : m - 0 = m := by omega
  rw [hm0] at hexp
  have hpoll1 : m ≤ (exportPhase env (pyStrip req.outputDirRaw)
      (parseLogNames req.logNamesRaw) 0).polls := by
    rw [hexp]; simp; omega
  have hab1 : env.abort (exportPhase env (pyStrip req.outputDirRaw)
      (parseLogNames req.logNamesRaw) 0).polls = true := by
    rw [ha]; simpa using hpoll1
  simp only [collectWorker, hv, if_true]
  have hcs := copySection_aborted env req (pyStrip req.outputDirRaw)
    (pyStrip req.crashDumpDirRaw)
    ⟨fs0.files ++ (exportPhase env (pyStrip req.outputDirRaw)
        (parseLogNames req.logNamesRaw) 0).newFiles,
     fs0.dirs ++ [pyStrip req.outputDirRaw]⟩
    (exportPhase env (pyStrip req.outputDirRaw) (parseLogNames req.logNamesRaw) 0).polls hab1
  have hpoll2 : m ≤ (copySection env req (pyStrip req.outputDirRaw)
      (pyStrip req.crashDumpDirRaw)
      ⟨fs0.files ++ (exportPhase env (pyStrip req.outputDirRaw)
          (parseLogNames req.logNamesRaw) 0).newFiles,
       fs0.dirs ++ [pyStrip req.outputDirRaw]⟩
      (exportPhase env (pyStrip req.outputDirRaw) (parseLogNames req.logNamesRaw) 0).polls).polls :=
    le_trans hpoll1 hcs.2.2
  have hab2 : env.abort (copySection env req (pyStrip req.outputDirRaw)
      (pyStrip req.crashDumpDirRaw)
      ⟨fs0.files ++ (exportPhase env (pyStrip req.outputDirRaw)
          (parseLogNames req.logNamesRaw) 0).newFiles,
       fs0.dirs ++ [pyStrip req.outputDirRaw]⟩
      (exportPhase env (pyStrip req.outputDirRaw)
        (parseLogNames req.logNamesRaw) 0).polls).polls = true := by
    rw [ha]; simpa using hpoll2
  rw [zipSection_aborted env req (pyStrip req.outputDirRaw) _ _ hab2]
  refine ⟨?_, ?_, ?_, ?_⟩
  · rw [hexp]; rfl
  · exact hcs.1
  · rfl
  · show (copySection env req _ _ _ _).fs.files = _
    rw [hcs.2.1]
    rw [hexp]

/-- An environment whose abort flag turns on at poll index 1: the first log
name is processed, then the worker observes the abort at the second poll. -/
def abortAfterOneEnv : Env := { baseEnv with abort := fun i => decide (1 ≤ i) }

/-- Claim C2, witness: with three requested names and the abort flag set
after the first, only `"A"` is invoked, nothing is copied, no archive is
written, and the exported file `/out/A.evtx` is still on disk at the end. -/
theorem c2_abort_stops_pipeline_witness :
    (collectWorker ⟨"A, B, C", "/out", true, "/dumps", true⟩ abortAfterOneEnv
        emptyFS).invocations = [⟨["wevtutil", "epl", "A", "/out/A.evtx", "/ow:true"], 120⟩] ∧
    (collectWorker ⟨"A, B, C", "/out", true, "/dumps", true⟩ abortAfterOneEnv
        emptyFS).copies = [] ∧
    (collectWorker ⟨"A, B, C", "/out", true, "/dumps", true⟩ abortAfterOneEnv
        emptyFS).zipResult = none ∧
    (collectWorker ⟨"A, B, C", "/out", true, "/dumps", true⟩ abortAfterOneEnv
        emptyFS).fs.files = ["/out/A.evtx"] := by
  have h := c2_abort_stops_pipeline ⟨"A, B, C", "/out", true, "/dumps", true⟩ abortAfterOneEnv
    emptyFS 1 (by decide) (by decide) (fun i => rfl)
  exact ⟨h.1.trans (by decide), h.2.1, h.2.2.1, h.2.2.2.trans (by decide)⟩

/-! ## Claim C6 -/

/-- Claim C6: with the include flag set, (a) when the stripped crash-dump
directory is blank or not a directory the dump step is a no-op — nothing is
copied, no count is reported, no `CrashDumps` subdirectory is created (the
directory list gains only the output directory) and the missing-directory
message is logged; (b) otherwise, in a non-aborted run with every copy
succeeding, the `CrashDumps` subdirectory is created and exactly the entries
of the crash-dump directory ending in `.dmp` are copied into it, with the
reported count equal to their number; and (c) in every run the reported count
equals the number of files actually copied. -/
theorem c6_dump_collector (req : Request) (env : Env) (fs0 : FS)
    (hv : validate req = true) (hic : req.includeCrashDumps = true) :
    ((pyStrip req.crashDumpDirRaw = "" ∨ env.crashDirIsDir = false) →
      (collectWorker req env fs0).copies = [] ∧
      (collectWorker req env fs0).dumpCount = none ∧
      (collectWorker req env fs0).fs.dirs = fs0.dirs ++ [pyStrip req.outputDirRaw] ∧
      "Crash dump folder missing or invalid; skipped." ∈ (collectWorker req env fs0).logLines) ∧
    (pyStrip req.crashDumpDirRaw ≠ "" → env.crashDirIsDir = true →
      (∀ i, env.abort i = false) → (∀ f, env.copyOk f = true) →
      (collectWorker req env fs0).copies =
        (dmpFiles env).map
          (fun f => pathJoin (pathJoin (pyStrip req.outputDirRaw) "CrashDumps") f) ∧
      (collectWorker req env fs0).dumpCount = some (dmpFiles env).length ∧
      pathJoin (pyStrip req.outputDirRaw) "CrashDumps" ∈ (collectWorker req env fs0).fs.dirs) ∧
    (∀ (env' : Env) (d : String) (l : List String) (k : Nat),
      (copyPhase env' d l k).count = (copyPhase env' d l k).copied.length) := by
  refine ⟨?_, ?_, fun env' d l k => copyPhase_count_eq_length env' d l k⟩
  · intro hbad
    have hcond : (req.includeCrashDumps && (pyStrip req.crashDumpDirRaw != "") &&
        env.crashDirIsDir) = false := by
      rcases hbad with h | h
      · simp [h]
      · simp [h]
    have hmsg : (req.includeCrashDumps && ((pyStrip req.crashDumpDirRaw == "") ||
        !env.crashDirIsDir)) = true := by
      rcases hbad with h | h
      · simp [h, hic]
      · simp [h, hic]
    refine ⟨?_, ?_, ?_, ?_⟩
    · simp [collectWorker, hv, copySection, hcond]
    · simp [collectWorker, hv, copySection, hcond]
    · simp [collectWorker, hv, copySection, hcond, zipSection_dirs]
    · simp [collectWorker, hv, copySection, hcond, hmsg]
  · intro hcd hidir ha hok
    have hcond : (req.includeCrashDumps && (pyStrip req.crashDumpDirRaw != "") &&
        env.crashDirIsDir) = true := by
      simp [hic, hidir, bne_iff_ne, hcd]
    have hcopy := copyPhase_noAbort_ok env
      (pathJoin (pyStrip req.outputDirRaw) "CrashDumps") ha hok (dmpFiles env)
      (exportPhase env (pyStrip req.outputDirRaw) (parseLogNames req.logNamesRaw) 0).polls
    refine ⟨?_, ?_, ?_⟩
    · simp [collectWorker, hv, copySection, hcond, hcopy]
    · simp [collectWorker, hv, copySection, hcond, hcopy]
    · simp [collectWorker, hv, copySection, hcond, hcopy, zipSection_dirs]

/-- An environment with a valid crash-dump directory containing two `.dmp`
files and one other file. -/
def dumpEnv : Env :=
  { baseEnv with crashDirIsDir := true, crashDirEntries := ["a.dmp", "b.txt", "c.dmp"] }

/-- Claim C6, witness: the two `.dmp` entries — and only they — are copied
into `/o/CrashDumps`, the reported count is 2, and the subdirectory is
created. -/
theorem c6_dump_collector_witness :
    (collectWorker ⟨"App", "/o", true, "/dumps", false⟩ dumpEnv emptyFS).copies =
      ["/o/CrashDumps/a.dmp", "/o/CrashDumps/c.dmp"] ∧
    (collectWorker ⟨"App", "/o", true, "/dumps", false⟩ dumpEnv emptyFS).dumpCount = some 2 ∧
    "/o/CrashDumps" ∈ (collectWorker ⟨"App", "/o", true, "/dumps", false⟩ dumpEnv
      emptyFS).fs.dirs := by
  have h := (c6_dump_collector ⟨"App", "/o", true, "/dumps", false⟩ dumpEnv emptyFS
    (by decide) rfl).2.1 (by decide) rfl (fun i => rfl) (fun f => rfl)
  refine ⟨h.1.trans (by decide), h.2.1.trans (by decide), ?_⟩
  have hp : pathJoin (pyStrip "/o") "CrashDumps" = "/o/CrashDumps" := by decide
  rw [hp] at h
  exact h.2.2

/-! ## List helpers for the archive-layout claim -/

/-- A list is a Boolean prefix of itself followed by anything. -/
theorem isPrefixOf_append_right : ∀ (l t : List Char), l.isPrefixOf (l ++ t) = true := by
  intro l t
  induction l with
  | nil => simp [List.isPrefixOf]
  | cons a l ih => simp [List.isPrefixOf, ih]

/-- A Boolean prefix can be split off. -/
theorem isPrefixOf_ex : ∀ {l m : List Char}, l.isPrefixOf m = true → ∃ t, m = l ++ t := by
  intro l
  induction l with
  | nil => exact fun {m} _ => ⟨m, rfl⟩
  | cons a l ih =>
    intro m h
    cases m with
    | nil => simp [List.isPrefixOf] at h
    | cons b m =>
      simp only [List.isPrefixOf, Bool.and_eq_true, beq_iff_eq] at h
      obtain ⟨t, rfl⟩ := ih h.2
      exact ⟨t, by rw [h.1, List.cons_append]⟩

/-- Dropping the last element of a list with one element appended. -/
theorem dropLast_append_one {α : Type} (l : List α) (a : α) : (l ++ [a]).dropLast = l := by
  induction l with
  | nil => rfl
  | cons x xs ih => cases xs <;> simp_all [List.dropLast]

/-- The head of the dropped part of `dropWhile (fun c => !isSlash c)` is a
separator. -/
theorem dropWhile_head_isSlash : ∀ (l : List Char) (a : Char) (tl : List Char),
    l.dropWhile (fun c => !isSlash c) = a :: tl → isSlash a = true := by
  intro l
  induction l with
  | nil => intro a tl h; simp [List.dropWhile] at h
  | cons x xs ih =>
    intro a tl h
    rw [List.dropWhile_cons] at h
    by_cases hx : isSlash x = true
    · rw [if_neg (by simp [hx])] at h
      cases h
      exact hx
    · have hx' : (!isSlash x) = true := by
        revert hx; cases isSlash x <;> simp
      rw [if_pos hx'] at h
      exact ih a tl h

/-- Splitting a list at a marked element not occurring in the left part:
`takeWhile` keeps exactly the left part and `dropWhile` starts at the mark. -/
theorem takeWhile_append_stop (p : Char → Bool) :
    ∀ (xs : List Char) (y : Char) (ys : List Char),
      (∀ x ∈ xs, p x = true) → p y = false →
      (xs ++ y :: ys).takeWhile p = xs ∧ (xs ++ y :: ys).dropWhile p = y :: ys := by
  intro xs
  induction xs with
  | nil =>
    intro y ys _ hy
    constructor <;> simp [List.takeWhile_cons, List.dropWhile_cons, hy]
  | cons x xs ih =>
    intro y ys hall hy
    have hx : p x = true := hall x (by simp)
    have ihr := ih y ys (fun a ha => hall a (by simp [ha])) hy
    constructor
    · simp [List.takeWhile_cons, hx, ihr.1]
    · simp [List.dropWhile_cons, hx, ihr.2]

/-- Every non-empty path either contains no separator, or splits at its last
separator into a prefix and a separator-free base name. -/
theorem slashFree_decomp (out : List Char) :
    (∀ c ∈ out, isSlash c = false) ∨
    (∃ pre base, out = pre ++ '/' :: base ∧ ∀ c ∈ base, isSlash c = false) := by
  have hsplit := List.takeWhile_append_dropWhile (p := fun c => !isSlash c) (l := out.reverse)
  cases hd : out.reverse.dropWhile (fun c => !isSlash c) with
  | nil =>
    left
    intro c hc
    have hall : ∀ x ∈ out.reverse, (!isSlash x) = true := List.dropWhile_eq_nil_iff.mp hd
    simpa using hall c (List.mem_reverse.mpr hc)
  | cons c d' =>
    right
    have hceq : c = '/' := by simpa [isSlash] using dropWhile_head_isSlash _ c d' hd
    subst hceq
    rw [hd] at hsplit
    refine ⟨d'.reverse, (out.reverse.takeWhile (fun x => !isSlash x)).reverse, ?_, ?_⟩
    · calc out = out.reverse.reverse := (List.reverse_reverse out).symm
        _ = (out.reverse.takeWhile (fun x => !isSlash x) ++ '/' :: d').reverse := by
            rw [hsplit]
        _ = d'.reverse ++ '/' :: (out.reverse.takeWhile (fun x => !isSlash x)).reverse := by
            simp
    · intro x hx
      have hx2 : x ∈ out.reverse.takeWhile (fun x => !isSlash x) := List.mem_reverse.mp hx
      simpa using List.mem_takeWhile_imp hx2

/-- Base name of a decomposed path: the part after the last separator. -/
theorem basenameL_decomp (pre base : List Char) (hb : ∀ c ∈ base, isSlash c = false) :
    basenameL (pre ++ '/' :: base) = base := by
  unfold basenameL
  rw [show (pre ++ '/' :: base).reverse = base.reverse ++ '/' :: pre.reverse from by simp]
  rw [(takeWhile_append_stop (fun c => !isSlash c) base.reverse '/' pre.reverse
    (fun x hx => by simp [hb x (List.mem_reverse.mp hx)]) (by simp [isSlash])).1]
  exact List.reverse_reverse base

/-- Head part of a decomposed path: everything up to and including the last
separator. -/
theorem headPartL_decomp (pre base : List Char) (hb : ∀ c ∈ base, isSlash c = false) :
    headPartL (pre ++ '/' :: base) = pre ++ ['/'] := by
  unfold headPartL
  rw [show (pre ++ '/' :: base).reverse = base.reverse ++ '/' :: pre.reverse from by simp]
  rw [(takeWhile_append_stop (fun c => !isSlash c) base.reverse '/' pre.reverse
    (fun x hx => by simp [hb x (List.mem_reverse.mp hx)]) (by simp [isSlash])).2]
  simp

/-- A validated request has a non-blank stripped output directory. -/
theorem validate_outDir_ne (req : Request) (hv : validate req = true) :
    pyStrip req.outputDirRaw ≠ "" := by
  unfold validate at hv
  cases hp : parseLogNames req.logNamesRaw with
  | nil => rw [hp] at hv; cases hv
  | cons a l =>
    rw [hp] at hv
    simpa [bne_iff_ne] using hv

/-- The archive section in a non-aborted run with the ZIP flag set and a
succeeding archive write. -/
theorem zipSection_zips (env : Env) (req : Request) (outDir : String) (fs3 : FS) (k2 : Nat)
    (hz : req.createZip = true) (hab : env.abort k2 = false) (hok : env.zipOk = true) :
    zipSection env req outDir fs3 k2 =
      ⟨⟨fs3.files ++ [rstripSep outDir ++ "_EventLogsAndDumps.zip"], fs3.dirs⟩,
       ["Creating ZIP: " ++ (rstripSep outDir ++ "_EventLogsAndDumps.zip"),
        "  -> " ++ (rstripSep outDir ++ "_EventLogsAndDumps.zip")],
       some (rstripSep outDir ++ "_EventLogsAndDumps.zip", zipEntries outDir fs3.files)⟩ := by
  unfold zipSection
  rw [if_pos (by simp [hz, hab] : (req.createZip && !env.abort k2) = true), if_pos hok]


/-! ## Component lemmas for the archive-layout claim -/

/-- Unfolding of the raw split at a separator head. -/
theorem splitSlashRaw_cons_slash (w : List Char) :
    splitSlashRaw ('/' :: w) = [] :: splitSlashRaw w := by
  simp [splitSlashRaw]

/-- Unfolding of the raw split at a non-separator head. -/
theorem splitSlashRaw_cons_other (c : Char) (hc : c ≠ '/') (w : List Char) :
    splitSlashRaw (c :: w) =
      (match splitSlashRaw w with
       | [] => [[c]]
       | h :: t => (c :: h) :: t) := by
  simp [splitSlashRaw, hc]

/-- The raw split never yields an empty chunk list. -/
theorem splitSlashRaw_ne_nil : ∀ l : List Char, splitSlashRaw l ≠ [] := by
  intro l
  induction l with
  | nil => simp [splitSlashRaw]
  | cons c rest ih =>
    by_cases hc : c = '/'
    · subst hc
      rw [splitSlashRaw_cons_slash]
      simp
    · rw [splitSlashRaw_cons_other c hc]
      cases hr : splitSlashRaw rest <;> simp

/-- The raw split distributes over a separator. -/
theorem splitSlashRaw_append : ∀ (x y : List Char),
    splitSlashRaw (x ++ '/' :: y) = splitSlashRaw x ++ splitSlashRaw y := by
  intro x
  induction x with
  | nil =>
    intro y
    rw [List.nil_append, splitSlashRaw_cons_slash]
    rfl
  | cons c x' ih =>
    intro y
    by_cases hc : c = '/'
    · subst hc
      rw [List.cons_append, splitSlashRaw_cons_slash, splitSlashRaw_cons_slash, ih y,
        List.cons_append]
    · rw [List.cons_append, splitSlashRaw_cons_other c hc, splitSlashRaw_cons_other c hc,
        ih y]
      cases hr : splitSlashRaw x' with
      | nil => exact absurd hr (splitSlashRaw_ne_nil x')
      | cons h t => simp

/-- The component split distributes over a separator. -/
theorem splitSlashL_append (x y : List Char) :
    splitSlashL (x ++ '/' :: y) = splitSlashL x ++ splitSlashL y := by
  unfold splitSlashL
  rw [splitSlashRaw_append, List.filter_append]

/-- The component split of a separator-free non-empty name is that single
name. -/
theorem splitSlashL_slashFree (r : List Char) (hr : ∀ c ∈ r, isSlash c = false)
    (hne : r ≠ []) : splitSlashL r = [r] := by
  have hraw : splitSlashRaw r = [r] := by
    induction r with
    | nil => simp [splitSlashRaw]
    | cons c w ih =>
      have hc : c ≠ '/' := by
        have := hr c (by simp)
        simpa [isSlash] using this
      rw [splitSlashRaw_cons_other c hc]
      by_cases hw : w = []
      · subst hw; simp [splitSlashRaw]
      · rw [ih (fun a ha => hr a (by simp [ha])) hw]
  unfold splitSlashL
  rw [hraw]
  simp [hne]

/-- The component split of the empty path is empty. -/
theorem splitSlashL_nil : splitSlashL [] = [] := rfl

/-- A list of separators is a replicate of the separator. -/
theorem allSlash_replicate (l : List Char) (h : ∀ c ∈ l, isSlash c = true) :
    l = List.replicate l.length '/' := by
  induction l with
  | nil => rfl
  | cons c w ih =>
    have hc : c = '/' := by simpa [isSlash] using h c (by simp)
    subst hc
    rw [List.length_cons, List.replicate_succ]
    rw [← ih (fun a ha => h a (by simp [ha]))]

/-- Trailing separators do not change the component split. -/
theorem splitSlashL_append_replicate : ∀ (k : Nat) (x : List Char),
    splitSlashL (x ++ List.replicate k '/') = splitSlashL x := by
  intro k
  induction k with
  | zero => intro x; simp
  | succ k ih =>
    intro x
    rw [List.replicate_succ, show x ++ '/' :: List.replicate k '/' =
      (x ++ ['/']) ++ List.replicate k '/' from by simp, ih (x ++ ['/'])]
    rw [show x ++ ['/'] = x ++ '/' :: ([] : List Char) from rfl, splitSlashL_append,
      splitSlashL_nil, List.append_nil]

/-- Every path is its separator-stripped form plus trailing separators. -/
theorem rstrip_decomp (x : List Char) :
    ∃ k, x = rstripSlashL x ++ List.replicate k '/' := by
  refine ⟨(x.reverse.takeWhile isSlash).length, ?_⟩
  have hsplit := List.takeWhile_append_dropWhile (p := isSlash) (l := x.reverse)
  have hrep : x.reverse.takeWhile isSlash =
      List.replicate (x.reverse.takeWhile isSlash).length '/' :=
    allSlash_replicate _ (fun c hc => List.mem_takeWhile_imp hc)
  calc x = x.reverse.reverse := (List.reverse_reverse x).symm
    _ = (x.reverse.takeWhile isSlash ++ x.reverse.dropWhile isSlash).reverse := by rw [hsplit]
    _ = (x.reverse.dropWhile isSlash).reverse ++ (x.reverse.takeWhile isSlash).reverse := by
        rw [List.reverse_append]
    _ = rstripSlashL x ++ List.replicate (x.reverse.takeWhile isSlash).length '/' := by
        rw [rstripSlashL]
        rw [show (x.reverse.takeWhile isSlash).reverse =
          (List.replicate (x.reverse.takeWhile isSlash).length '/').reverse from by
            rw [← hrep]]
        rw [List.reverse_replicate]

/-- Stripping trailing separators does not change the component split. -/
theorem splitSlashL_rstrip (x : List Char) :
    splitSlashL (rstripSlashL x) = splitSlashL x := by
  obtain ⟨k, hk⟩ := rstrip_decomp x
  conv_rhs => rw [hk]
  rw [splitSlashL_append_replicate]

/-- The component split of a list of separators is empty. -/
theorem splitSlashL_allSlash (l : List Char) (h : ∀ c ∈ l, isSlash c = true) :
    splitSlashL l = [] := by
  rw [allSlash_replicate l h,
    show List.replicate l.length '/' = [] ++ List.replicate l.length '/' from by simp,
    splitSlashL_append_replicate]
  rfl

/-- A plain component is kept verbatim by the normalisation step. -/
theorem normStep_plain (acc : List (List Char)) (c : List Char)
    (h1 : c ≠ ['.']) (h2 : c ≠ ['.', '.']) : normStep acc c = acc ++ [c] := by
  unfold normStep
  rw [if_neg h1, if_neg h2]

/-- Folding the normalisation step over plain components appends them. -/
theorem foldl_normStep_plain :
    ∀ (cs : List (List Char)), (∀ c ∈ cs, c ≠ ['.'] ∧ c ≠ ['.', '.']) →
      ∀ acc, cs.foldl normStep acc = acc ++ cs := by
  intro cs
  induction cs with
  | nil => intro _ acc; simp
  | cons c cs ih =>
    intro h acc
    have hc := h c (by simp)
    rw [List.foldl_cons, normStep_plain acc c hc.1 hc.2,
      ih (fun a ha => h a (by simp [ha])) (acc ++ [c])]
    simp

/-- Unpacking of the Boolean plain-component predicate. -/
theorem plainCompL_spec (c : List Char) (h : plainCompL c = true) :
    c ≠ [] ∧ (∀ x ∈ c, isSlash x = false) ∧ c ≠ ['.'] ∧ c ≠ ['.', '.'] := by
  unfold plainCompL at h
  simp at h
  exact ⟨h.1.1.1, h.1.1.2, h.1.2, h.2⟩

/-- Unpacking of the Boolean well-formed-rest predicate. -/
theorem plainRestL_spec (r : List Char) (h : plainRestL r = true) :
    splitSlashL r ≠ [] ∧ ∀ c ∈ splitSlashL r, plainCompL c = true := by
  unfold plainRestL at h
  simp at h
  exact ⟨h.1, h.2⟩

/-- The normalised components of the empty path. -/
theorem absComps_nil : absComps [] = [] := rfl

/-- The normalised components of a run of separators. -/
theorem absComps_allSlash (l : List Char) (h : ∀ c ∈ l, isSlash c = true) :
    absComps l = [] := by
  unfold absComps
  rw [splitSlashL_allSlash l h]
  rfl

/-- Stripping trailing separators does not change the normalised
components. -/
theorem absComps_rstrip (x : List Char) : absComps (rstripSlashL x) = absComps x := by
  unfold absComps
  rw [splitSlashL_rstrip]

/-- The normalised components of a single plain name. -/
theorem absComps_single (b : List Char) (hfree : ∀ c ∈ b, isSlash c = false)
    (hne : b ≠ []) (h1 : b ≠ ['.']) (h2 : b ≠ ['.', '.']) : absComps b = [b] := by
  unfold absComps
  rw [splitSlashL_slashFree b hfree hne, List.foldl_cons, normStep_plain [] b h1 h2,
    List.foldl_nil]
  rfl

/-- Appending a well-formed relative part appends its components. -/
theorem absComps_append_plain (x rest : List Char) (h : plainRestL rest = true) :
    absComps (x ++ '/' :: rest) = absComps x ++ splitSlashL rest := by
  obtain ⟨_, hall⟩ := plainRestL_spec rest h
  unfold absComps
  rw [splitSlashL_append, List.foldl_append]
  exact foldl_normStep_plain _
    (fun c hc => ⟨(plainCompL_spec c (hall c hc)).2.2.1, (plainCompL_spec c (hall c hc)).2.2.2⟩)
    _

/-- The common prefix of a list with an extension of itself is the whole
list. -/
theorem commonPrefixLen_self_append (l m : List (List Char)) :
    commonPrefixLen l (l ++ m) = l.length := by
  induction l with
  | nil => rfl
  | cons a as ih =>
    rw [List.cons_append,
      show commonPrefixLen (a :: as) (a :: (as ++ m)) =
        if a = a then commonPrefixLen as (as ++ m) + 1 else 0 from rfl,
      if_pos rfl, ih, List.length_cons]

/-- Joining a non-trivial component list starts with its head and a
separator. -/
theorem joinComps_cons (b : List Char) (R : List (List Char)) (h : R ≠ []) :
    joinComps (b :: R) = b ++ '/' :: joinComps R := by
  cases R with
  | nil => exact absurd rfl h
  | cons r rs => simp [joinComps]

/-- The normalised components of `os.path.dirname` of a decomposed path are
those of the part before the last separator. -/
theorem absComps_dirname (pre base : List Char) (hb : ∀ c ∈ base, isSlash c = false) :
    absComps (dirnameL (pre ++ '/' :: base)) = absComps pre := by
  unfold dirnameL
  rw [headPartL_decomp pre base hb]
  by_cases hall : ((pre ++ ['/']).all isSlash) = true
  · rw [if_pos hall]
    rw [absComps_allSlash _ (fun c hc => (List.all_eq_true.mp hall) c hc)]
    rw [absComps_allSlash pre
      (fun c hc => (List.all_eq_true.mp hall) c (List.mem_append_left _ hc))]
  · rw [if_neg hall]
    rw [show rstripSlashL (pre ++ ['/']) = rstripSlashL pre from by
      unfold rstripSlashL
      rw [show (pre ++ ['/']).reverse = '/' :: pre.reverse from by simp,
        List.dropWhile_cons, if_pos (by decide : isSlash '/' = true)]]
    rw [absComps_rstrip]

/-- Key lemma for the archive layout: for a path whose base name is a plain
component, a file with a well-formed relative part under it has `relpath`
relative to the path's `dirname` equal to the base name followed by the
normalised relative part — the base name becomes the top-level archive
folder. -/
theorem relpath_dirname_plain (out rest : List Char)
    (hbase : plainCompL (basenameL out) = true)
    (hrest : plainRestL rest = true) :
    relpathL (out ++ '/' :: rest) (dirnameL out) =
      basenameL out ++ '/' :: joinComps (splitSlashL rest) := by
  obtain ⟨hRne, hRall⟩ := plainRestL_spec rest hrest
  rcases slashFree_decomp out with hfree | ⟨pre, base, hdec, hbfree⟩
  · have hdw : out.reverse.dropWhile (fun c => !isSlash c) = [] :=
      List.dropWhile_eq_nil_iff.mpr (fun x hx => by simp [hfree x (List.mem_reverse.mp hx)])
    have hbase_eq : basenameL out = out := by
      unfold basenameL
      have hsp := List.takeWhile_append_dropWhile (p := fun c => !isSlash c) (l := out.reverse)
      rw [hdw, List.append_nil] at hsp
      rw [hsp, List.reverse_reverse]
    have hspec := plainCompL_spec _ hbase
    rw [hbase_eq] at hspec
    have hdir : dirnameL out = [] := by
      unfold dirnameL headPartL
      rw [hdw]
      simp
    rw [hdir, hbase_eq]
    simp only [relpathL, absComps_nil]
    rw [absComps_append_plain out rest hrest,
      absComps_single out hfree hspec.1 hspec.2.2.1 hspec.2.2.2]
    rw [show commonPrefixLen [] ([out] ++ splitSlashL rest) = 0 from rfl]
    simp only [List.length_nil, Nat.zero_sub, List.replicate_zero, List.nil_append,
      List.drop_zero, List.singleton_append]
    rw [if_neg (by simp)]
    rw [joinComps_cons out (splitSlashL rest) hRne]
  · subst hdec
    have hbeq : basenameL (pre ++ '/' :: base) = base := basenameL_decomp pre base hbfree
    rw [hbeq] at hbase
    have hbspec := plainCompL_spec base hbase
    rw [hbeq]
    simp only [relpathL]
    rw [absComps_dirname pre base hbfree]
    rw [show (pre ++ '/' :: base) ++ '/' :: rest = pre ++ '/' :: (base ++ '/' :: rest) from
      by simp]
    have hsplit' : splitSlashL (base ++ '/' :: rest) = base :: splitSlashL rest := by
      rw [splitSlashL_append, splitSlashL_slashFree base hbfree hbspec.1,
        List.singleton_append]
    have hrest' : plainRestL (base ++ '/' :: rest) = true := by
      unfold plainRestL
      rw [hsplit']
      simp only [List.isEmpty_cons, List.all_cons, Bool.not_eq_true']
      rw [hbase]
      simp only [Bool.true_and, Bool.not_false, Bool.true_and]
      exact List.all_eq_true.mpr hRall
    rw [absComps_append_plain pre (base ++ '/' :: rest) hrest', hsplit']
    rw [commonPrefixLen_self_append, Nat.sub_self, List.replicate_zero, List.nil_append,
      List.drop_left]
    rw [if_neg (by simp)]
    rw [joinComps_cons base (splitSlashL rest) hRne]

/-- The last character of an appended list comes from a non-empty second
part. -/
theorem lastIsSlash_append (x y : List Char) (hy : y ≠ []) :
    lastIsSlash (x ++ y) = lastIsSlash y := by
  unfold lastIsSlash
  rw [List.reverse_append]
  cases hr : y.reverse with
  | nil => exact absurd (by simpa using congrArg List.reverse hr) hy
  | cons c w => rw [List.cons_append]; rfl

/-- A path with a non-empty base name does not end in a separator. -/
theorem basenameL_ne_nil_not_slash (l : List Char) (h : basenameL l ≠ []) :
    lastIsSlash l = false := by
  cases hl : lastIsSlash l with
  | false => rfl
  | true =>
    exfalso
    apply h
    unfold lastIsSlash at hl
    cases hr : l.reverse with
    | nil => rw [hr] at hl; simp at hl
    | cons a w =>
      rw [hr] at hl
      have ha : a = '/' := by simpa using hl
      subst ha
      unfold basenameL
      rw [hr, List.takeWhile_cons, if_neg (by simp [isSlash])]
      rfl

/-- Evaluation of the join model in the plain case: a non-empty first part
without a trailing separator and a second part that is not absolute. -/
theorem joinL_simple (a b : List Char) (ha : a ≠ []) (hla : lastIsSlash a = false)
    (hb : b.head? ≠ some '/') : joinL a b = a ++ '/' :: b := by
  have h2 : a.isEmpty = false := by
    cases a with
    | nil => exact absurd rfl ha
    | cons x l => rfl
  unfold joinL
  rw [if_neg (by simp [hb]), if_neg (by simp [h2]), if_neg (by simp [hla])]

/-- The sanitizer never produces a separator. -/
theorem sanCh_not_slash (c : Char) : isSlash (sanCh c) = false := by
  unfold sanCh
  by_cases hk : keepChar c = true
  · rw [if_pos hk]
    by_cases hc : c = '/'
    · subst hc; exact absurd hk (by decide)
    · simp [isSlash, hc]
  · rw [if_neg hk]
    decide

/-- No character of a sanitized name is a separator. -/
theorem sanitize_no_slash (n : String) : ∀ c ∈ (sanitize n).toList, isSlash c = false := by
  intro c hc
  simp only [sanitize, String.toList, List.mem_map] at hc
  obtain ⟨c', _, rfl⟩ := hc
  exact sanCh_not_slash c'

/-- Parsed log names are non-blank. -/
theorem parseLogNames_mem_toList_ne (raw : String) :
    ∀ n ∈ parseLogNames raw, n.toList ≠ [] := by
  intro n hn
  unfold parseLogNames at hn
  by_cases h : pyStripL raw.toList = []
  · rw [if_pos h] at hn; cases hn
  · rw [if_neg h] at hn
    obtain ⟨l, hl, rfl⟩ := List.mem_map.mp hn
    have hl2 : l ≠ [] := by simpa using (List.mem_filter.mp hl).2
    intro hc
    exact hl2 hc

/-- Every file left by the export loop is the destination of one of the
requested names. -/
theorem exportPhase_newFiles_ex (env : Env) (outDir : String) :
    ∀ (names : List String) (k : Nat) (q : String),
      q ∈ (exportPhase env outDir names k).newFiles → ∃ n ∈ names, q = evtxPath outDir n := by
  intro names
  induction names with
  | nil => intro k q hq; simp [exportPhase] at hq
  | cons n rest ih =>
    intro k q hq
    by_cases hab : env.abort k = true
    · simp [exportPhase, hab] at hq
    · have hab' : env.abort k = false := by revert hab; cases env.abort k <;> simp
      simp only [exportPhase, hab', if_false, Bool.false_eq_true] at hq
      rcases List.mem_append.mp hq with h1 | h2
      · simp only [exportStep] at h1
        cases hi : env.invoke n <;> rw [hi] at h1 <;> simp at h1
        exact ⟨n, by simp, h1⟩
      · obtain ⟨m, hm, rfl⟩ := ih (k + 1) q h2
        exact ⟨m, by simp [hm], rfl⟩

/-- Every file copied by the copy loop is the destination of one of the
globbed names. -/
theorem copyPhase_copied_ex (env : Env) (d : String) :
    ∀ (l : List String) (k : Nat) (q : String),
      q ∈ (copyPhase env d l k).copied → ∃ f ∈ l, q = pathJoin d f := by
  intro l
  induction l with
  | nil => intro k q hq; simp [copyPhase] at hq
  | cons f rest ih =>
    intro k q hq
    by_cases hab : env.abort k = true
    · simp [copyPhase, hab] at hq
    · have hab' : env.abort k = false := by revert hab; cases env.abort k <;> simp
      by_cases hok : env.copyOk f = true
      · simp only [copyPhase, hab', hok, if_true, if_false, Bool.false_eq_true] at hq
        rcases List.mem_cons.mp hq with h1 | h2
        · exact ⟨f, by simp, h1⟩
        · obtain ⟨g, hg, rfl⟩ := ih (k + 1) q h2
          exact ⟨g, by simp [hg], rfl⟩
      · have hok' : env.copyOk f = false := by revert hok; cases env.copyOk f <;> simp
        simp only [copyPhase, hab', hok', if_true, if_false, Bool.false_eq_true] at hq
        obtain ⟨g, hg, rfl⟩ := ih (k + 1) q hq
        exact ⟨g, by simp [hg], rfl⟩

/-- Every file present after the crash-dump section is either a previous file
or the copy destination of a crash-dump directory entry. -/
theorem copySection_files_cases (env : Env) (req : Request) (outDir crashDir : String)
    (fs2 : FS) (k1 : Nat) :
    ∀ q ∈ (copySection env req outDir crashDir fs2 k1).fs.files,
      q ∈ fs2.files ∨
        ∃ f ∈ env.crashDirEntries, q = pathJoin (pathJoin outDir "CrashDumps") f := by
  intro q hq
  simp only [copySection] at hq
  split at hq
  · rcases List.mem_append.mp hq with h1 | h2
    · exact Or.inl h1
    · obtain ⟨f, hf, rfl⟩ := copyPhase_copied_ex env _ _ _ q h2
      exact Or.inr ⟨f, (List.mem_filter.mp hf).1, rfl⟩
  · exact Or.inl hq

/-- Decomposition and well-formedness of an export destination: under a
separator-normal output directory, the destination is the directory, a
separator, and one plain component ending in `.evtx`. -/
theorem evtxPath_decomp (out n : String) (hne : out.toList ≠ [])
    (hlast : lastIsSlash out.toList = false) :
    (evtxPath out n).toList = out.toList ++ '/' :: (sanitize n ++ ".evtx").toList ∧
    plainRestL ((sanitize n ++ ".evtx").toList) = true := by
  have hsplit : (sanitize n ++ ".evtx").toList =
      (sanitize n).toList ++ ['.', 'e', 'v', 't', 'x'] := rfl
  have hfree : ∀ c ∈ (sanitize n ++ ".evtx").toList, isSlash c = false := by
    intro c hc
    rw [hsplit] at hc
    rcases List.mem_append.mp hc with h1 | h2
    · exact sanitize_no_slash n c h1
    · have hall : ∀ x ∈ (['.', 'e', 'v', 't', 'x'] : List Char), (!isSlash x) = true :=
        List.all_eq_true.mp (by decide)
      simpa using hall c h2
  have hne2 : (sanitize n ++ ".evtx").toList ≠ [] := by
    rw [hsplit]
    simp
  have hlen : ((sanitize n ++ ".evtx").toList).length = (sanitize n).toList.length + 5 := by
    rw [hsplit]
    simp
  have hd1 : (sanitize n ++ ".evtx").toList ≠ ['.'] := by
    intro h
    rw [h] at hlen
    simp at hlen
  have hd2 : (sanitize n ++ ".evtx").toList ≠ ['.', '.'] := by
    intro h
    rw [h] at hlen
    simp at hlen
  have hplain : plainCompL ((sanitize n ++ ".evtx").toList) = true := by
    unfold plainCompL
    have hie : ((sanitize n ++ ".evtx").toList).isEmpty = false := by
      cases he : (sanitize n ++ ".evtx").toList with
      | nil => exact absurd he hne2
      | cons a l => rfl
    rw [hie]
    rw [show ((sanitize n ++ ".evtx").toList.all fun x => !isSlash x) = true from
      List.all_eq_true.mpr (fun x hx => by rw [hfree x hx]; rfl)]
    rw [show ((sanitize n ++ ".evtx").toList == ['.']) = false from by
      rw [beq_eq_false_iff_ne]; exact hd1]
    rw [show ((sanitize n ++ ".evtx").toList == ['.', '.']) = false from by
      rw [beq_eq_false_iff_ne]; exact hd2]
    rfl
  constructor
  · show (pathJoin out (sanitize n ++ ".evtx")).toList = _
    have e : (pathJoin out (sanitize n ++ ".evtx")).toList =
        joinL out.toList (sanitize n ++ ".evtx").toList := rfl
    rw [e, joinL_simple]
    · exact hne
    · exact hlast
    · cases hh : (sanitize n ++ ".evtx").toList with
      | nil => exact absurd hh hne2
      | cons c l =>
        have hc : isSlash c = false := hfree c (by rw [hh]; simp)
        simp only [List.head?_cons, ne_eq, Option.some.injEq]
        intro h
        rw [h] at hc
        simp [isSlash] at hc
  · unfold plainRestL
    rw [splitSlashL_slashFree _ hfree hne2]
    simp only [List.all_cons, List.all_nil, List.isEmpty_cons, hplain]
    rfl

/-- Decomposition and well-formedness of a crash-dump copy destination:
under a separator-normal output directory, the destination is the directory,
a separator, the plain `CrashDumps` component and the plain entry name. -/
theorem crashPath_decomp (out f : String) (hne : out.toList ≠ [])
    (hlast : lastIsSlash out.toList = false) (hf : plainName f = true) :
    (pathJoin (pathJoin out "CrashDumps") f).toList =
      out.toList ++ '/' :: (("CrashDumps" : String).toList ++ '/' :: f.toList) ∧
    plainRestL (("CrashDumps" : String).toList ++ '/' :: f.toList) = true := by
  have hspec := plainCompL_spec f.toList hf
  have hfhead : f.toList.head? ≠ some '/' := by
    cases hh : f.toList with
    | nil => exact absurd hh hspec.1
    | cons c l =>
      have hc : isSlash c = false := hspec.2.1 c (by rw [hh]; simp)
      simp only [List.head?_cons, ne_eq, Option.some.injEq]
      intro h
      rw [h] at hc
      simp [isSlash] at hc
  have hinner : (pathJoin out "CrashDumps").toList =
      out.toList ++ '/' :: ("CrashDumps" : String).toList := by
    have e : (pathJoin out "CrashDumps").toList =
        joinL out.toList ("CrashDumps" : String).toList := rfl
    rw [e, joinL_simple]
    · exact hne
    · exact hlast
    · decide
  constructor
  · have e : (pathJoin (pathJoin out "CrashDumps") f).toList =
        joinL (pathJoin out "CrashDumps").toList f.toList := rfl
    have houter : joinL (out.toList ++ '/' :: ("CrashDumps" : String).toList) f.toList =
        (out.toList ++ '/' :: ("CrashDumps" : String).toList) ++ '/' :: f.toList :=
      joinL_simple _ _ (by simp) (by rw [lastIsSlash_append _ _ (by simp)]; decide) hfhead
    rw [e, hinner, houter]
    simp
  · unfold plainRestL
    rw [splitSlashL_append, splitSlashL_slashFree ("CrashDumps" : String).toList
      (by decide) (by decide), splitSlashL_slashFree f.toList hspec.2.1 hspec.1]
    simp only [List.singleton_append, List.isEmpty_cons, List.all_cons, List.all_nil]
    rw [show plainCompL ("CrashDumps" : String).toList = true from by decide,
      show plainCompL f.toList = true from hf]
    rfl

/-- A validated request has a non-blank stripped output directory, at the
character-list level. -/
theorem validate_outDir_toList_ne (req : Request) (hv : validate req = true) :
    (pyStrip req.outputDirRaw).toList ≠ [] := by
  intro h
  apply validate_outDir_ne req hv
  calc pyStrip req.outputDirRaw = String.mk (pyStrip req.outputDirRaw).toList := rfl
    _ = String.mk [] := by rw [h]
    _ = "" := rfl

/-- Every archive entry of a file with a well-formed relative part under an
output directory whose base name is a plain component is prefixed by that
base name as a top-level folder. -/
theorem zip_entry_prefixed (out p : String)
    (hbase : plainName (basename out) = true)
    (hu : underDir out p = true)
    (hwf : ∀ rest : List Char, p.toList = out.toList ++ '/' :: rest → plainRestL rest = true) :
    strPrefixOf (basename out ++ "/") (relpath p (dirname out)) = true := by
  have hbl : plainCompL (basenameL out.toList) = true := hbase
  have hbne : basenameL out.toList ≠ [] := (plainCompL_spec _ hbl).1
  have hlast : lastIsSlash out.toList = false := basenameL_ne_nil_not_slash _ hbne
  unfold underDir underDirL at hu
  rw [if_neg (by simp only [Bool.not_eq_true]; exact hlast)] at hu
  obtain ⟨rest, hp⟩ := isPrefixOf_ex hu
  have hp2 : p.toList = out.toList ++ '/' :: rest := by rw [hp]; simp
  have hr := hwf rest hp2
  unfold strPrefixOf
  have e1 : (basename out ++ "/").toList = basenameL out.toList ++ ['/'] := rfl
  have e2 : (relpath p (dirname out)).toList = relpathL p.toList (dirnameL out.toList) := rfl
  rw [e1, e2, hp2]
  rw [relpath_dirname_plain out.toList rest hbl hr]
  rw [show basenameL out.toList ++ '/' :: joinComps (splitSlashL rest) =
    (basenameL out.toList ++ ['/']) ++ joinComps (splitSlashL rest) from by simp]
  exact isPrefixOf_append_right _ _

/-! ## Claim C3 (corrected) -/

/-- Claim C3, counterexample: the claim states that every archive entry is
stored relative to outputDir's parent and is therefore prefixed by
outputDir's base name as a top-level folder.  It fails whenever
`os.path.dirname` of the output directory is not its parent.  With the
trailing-separator directory `"/a/b/"`, `dirname` is `"/a/b"` — the
directory itself — and the exported file is stored as `"App.evtx"` with no
`"b/"` folder.  With the directory `"/a/b/."`, `dirname` is again `"/a/b"`
and `relpath` normalises the `.` away, storing the file as `"App.evtx"`
with no folder prefix either.  (The archive path formula itself holds in
both runs.) -/
theorem c3_degenerate_outdir_counterexample :
    (collectWorker ⟨"App", "/a/b/", false, "", true⟩ baseEnv emptyFS).zipResult =
      some ("/a/b_EventLogsAndDumps.zip", [("/a/b/App.evtx", "App.evtx")]) ∧
    basename (rstripSep (pyStrip "/a/b/")) = "b" ∧
    strPrefixOf "b/" "App.evtx" = false ∧
    (collectWorker ⟨"App", "/a/b/.", false, "", true⟩ baseEnv emptyFS).zipResult =
      some ("/a/b/._EventLogsAndDumps.zip", [("/a/b/./App.evtx", "App.evtx")]) := by
  refine ⟨by decide, by decide, by decide, by decide⟩

/-- Claim C3, amended: consider a validated, non-aborted run with the
archive flag set and a succeeding archive write, whose stripped output
directory names its target with a regular final component — a non-empty,
separator-free name other than `.` and `..`, which in particular rules out a
trailing separator — and in which the files already under the output
directory and the crash-dump directory entries carry well-formed names, as
every path produced by a real directory walk does (components non-empty and
never `.` or `..`).  Then the archive is written at the output directory
with trailing separators stripped plus `"_EventLogsAndDumps.zip"` (a sibling
of the output directory), it contains exactly the files under the output
directory, each stored under its `os.path.relpath` relative to
`os.path.dirname` of the output directory — its parent — and consequently
every entry is prefixed by the output directory's base name as a top-level
folder.  (When the final component is empty — a trailing separator — or
`.`, `dirname` yields the directory itself and the entries carry no such
prefix, as the counterexample shows; with `..` the entries climb out of
`dirname` through up-level components.) -/
theorem c3_archive_layout (req : Request) (env : Env) (fs0 : FS)
    (hv : validate req = true) (hz : req.createZip = true)
    (ha : ∀ i, env.abort i = false) (hok : env.zipOk = true)
    (hbase : plainName (basename (pyStrip req.outputDirRaw)) = true)
    (hfs0 : ∀ p ∈ fs0.files, ∀ rest : List Char,
      p.toList = (pyStrip req.outputDirRaw).toList ++ '/' :: rest → plainRestL rest = true)
    (hdmp : ∀ f ∈ env.crashDirEntries, plainName f = true) :
    (collectWorker req env fs0).fs.files =
      (collectWorker req env fs0).fs.files.dropLast ++
        [rstripSep (pyStrip req.outputDirRaw) ++ "_EventLogsAndDumps.zip"] ∧
    (collectWorker req env fs0).zipResult =
      some (rstripSep (pyStrip req.outputDirRaw) ++ "_EventLogsAndDumps.zip",
        zipEntries (pyStrip req.outputDirRaw) ((collectWorker req env fs0).fs.files.dropLast)) ∧
    (∀ e ∈ zipEntries (pyStrip req.outputDirRaw)
        ((collectWorker req env fs0).fs.files.dropLast),
      strPrefixOf (basename (pyStrip req.outputDirRaw) ++ "/") e.2 = true) := by
  have hneL := validate_outDir_toList_ne req hv
  have hlast : lastIsSlash (pyStrip req.outputDirRaw).toList = false :=
    basenameL_ne_nil_not_slash _ (plainCompL_spec _ hbase).1
  refine ⟨?_, ?_, ?_⟩
  · simp only [collectWorker, hv, if_true]
    rw [zipSection_zips env req _ _ _ hz (ha _) hok]
    simp only [dropLast_append_one]
  · simp only [collectWorker, hv, if_true]
    rw [zipSection_zips env req _ _ _ hz (ha _) hok]
    simp only [dropLast_append_one]
  · intro e he
    simp only [collectWorker, hv, if_true] at he
    rw [zipSection_zips env req _ _ _ hz (ha _) hok] at he
    simp only [dropLast_append_one] at he
    unfold zipEntries at he
    obtain ⟨q, hq, rfl⟩ := List.mem_map.mp he
    have hq2 := List.mem_filter.mp hq
    apply zip_entry_prefixed (pyStrip req.outputDirRaw) q hbase hq2.2
    intro rest hrest
    rcases copySection_files_cases env req _ _ _ _ q hq2.1 with hin | ⟨f, hf, rfl⟩
    · rcases List.mem_append.mp hin with h0 | hexp
      · exact hfs0 q h0 rest hrest
      · obtain ⟨n, _, rfl⟩ := exportPhase_newFiles_ex env _ _ _ q hexp
        have hd := evtxPath_decomp (pyStrip req.outputDirRaw) n hneL hlast
        have hre : rest = (sanitize n ++ ".evtx").toList := by
          simpa using List.append_cancel_left (hrest.symm.trans hd.1)
        rw [hre]
        exact hd.2
    · have hd := crashPath_decomp (pyStrip req.outputDirRaw) f hneL hlast (hdmp f hf)
      have hre : rest = ("CrashDumps" : String).toList ++ '/' :: f.toList := by
        simpa using List.append_cancel_left (hrest.symm.trans hd.1)
      rw [hre]
      exact hd.2

/-- Claim C3, witness: two runs of the amended claim.  On the
separator-normal output directory `/a/b` the exported file is archived as
`b/App.evtx` inside `/a/b_EventLogsAndDumps.zip`; on `/a//b` — a doubled
separator, which the claim still covers — `relpath` normalises the path and
the entry is likewise `b/App.evtx`, prefixed by the base name `b`. -/
theorem c3_archive_layout_witness :
    (collectWorker ⟨"App", "/a/b", false, "", true⟩ baseEnv emptyFS).zipResult =
      some ("/a/b_EventLogsAndDumps.zip", [("/a/b/App.evtx", "b/App.evtx")]) ∧
    (collectWorker ⟨"App", "/a//b", false, "", true⟩ baseEnv emptyFS).zipResult =
      some ("/a//b_EventLogsAndDumps.zip", [("/a//b/App.evtx", "b/App.evtx")]) ∧
    strPrefixOf "b/" "b/App.evtx" = true := by
  have h1 := c3_archive_layout ⟨"App", "/a/b", false, "", true⟩ baseEnv emptyFS
    (by decide) rfl (fun i => rfl) rfl (by decide)
    (fun p hp => absurd hp (List.not_mem_nil p))
    (fun f hf => absurd hf (List.not_mem_nil f))
  have h2 := c3_archive_layout ⟨"App", "/a//b", false, "", true⟩ baseEnv emptyFS
    (by decide) rfl (fun i => rfl) rfl (by decide)
    (fun p hp => absurd hp (List.not_mem_nil p))
    (fun f hf => absurd hf (List.not_mem_nil f))
  exact ⟨h1.2.1.trans (by decide), h2.2.1.trans (by decide), by decide⟩
